import Mathlib

/-!
Shallow embedding of `src/functions/data_processor.py`: the Path Resolver
(`get_parquet_paths`), the Raw Price Reconstructor (`convert_price_to_raw`)
and the Price Adjuster (`adjust_price`).

Numeric columns are modelled over `ℚ` (exact arithmetic standing in for
float64 values; the one claim that is specifically about IEEE
infinity/NaN propagation uses a dedicated extended-value type `PFloat`).
A data frame is a list of `Record`s; the timestamp index is a `Date`.
Timestamps are compared through `dateKey`; per the data-model invariant
timestamps are unique, so any correct sort produces the same list.
-/

/-- A calendar date, the timestamp index of one row. -/
structure Date where
  year : Nat
  month : Nat
  day : Nat
deriving DecidableEq, Repr

/-- Ordering key of a timestamp (lexicographic year/month/day). -/
def dateKey (d : Date) : Nat :=
  d.year * 10000 + d.month * 100 + d.day

/-- One row of a ticker's data frame.  `cols` holds the numeric columns by
their source column names (`open`, `high`, `low`, `close`, `volume`,
`adj close`, `dividends`, `stock splits`); the `ticker` string column is a
separate field.  The derived columns that `convert_price_to_raw` and
`adjust_price` create are `Option` fields, `none` meaning the column is
absent from the frame. -/
structure Record where
  date : Date
  ticker : String
  cols : String → ℚ
  adjust_factor : Option ℚ := none
  cum_adj_factor : Option ℚ := none
  fwd_div : Option ℚ := none
  retention_rate : Option ℚ := none
  accum_retention : Option ℚ := none
  adj_close : Option ℚ := none

/-- Default `adjust_cols` argument of both transforms. -/
def default_adjust_cols : List String :=
  ["open", "high", "low", "close", "dividends"]

/-- Default `split_col_name` argument of both transforms. -/
def default_split_col : String := "stock splits"

/-- The numeric columns of the storage schema (DEFAULT_DTYPE_DICT minus the
string `ticker` column). -/
def schemaNumericCols : List String :=
  ["open", "high", "low", "close", "volume", "adj close", "dividends", "stock splits"]

/-- The data content of a row: timestamp key, ticker, and the values of the
schema's numeric columns (derived columns excluded). -/
def dataPart (r : Record) : Nat × String × List ℚ :=
  (dateKey r.date, r.ticker, schemaNumericCols.map r.cols)

/-- `df.sort_index(ascending=False)`: sort rows newest-first. -/
abbrev descR (a b : Record) : Prop := dateKey b.date ≤ dateKey a.date

/-- `df.sort_index()`: sort rows oldest-first. -/
abbrev ascR (a b : Record) : Prop := dateKey a.date ≤ dateKey b.date

instance : IsTotal Record descR := ⟨fun a b => (le_total (dateKey b.date) (dateKey a.date))⟩

instance : IsTrans Record descR := ⟨fun _ _ _ hab hbc => le_trans hbc hab⟩

instance : IsTotal Record ascR := ⟨fun a b => (le_total (dateKey a.date) (dateKey b.date))⟩

instance : IsTrans Record ascR := ⟨fun _ _ _ hab hbc => le_trans hab hbc⟩

def sortDesc (l : List Record) : List Record := List.insertionSort descR l

def sortAsc (l : List Record) : List Record := List.insertionSort ascR l

/-- `lambda x: 1 if x == 0 else x` applied to the split-ratio column. -/
def adjFactor (splitCol : String) (r : Record) : ℚ :=
  if r.cols splitCol = 0 then 1 else r.cols splitCol

/-- `ticker_df['adjust_factor'] = ...; ticker_df['cum_adj_factor'] =
adjust_factor.cumprod().shift(1).fillna(1)`: walking the (descending) rows,
each row records its adjust-factor and the running product `acc` of the
adjust-factors of the rows before it; the initial accumulator is 1. -/
def withFactors (splitCol : String) (acc : ℚ) : List Record → List Record
  | [] => []
  | r :: rs =>
      { r with adjust_factor := some (adjFactor splitCol r),
               cum_adj_factor := some acc } ::
        withFactors splitCol (acc * adjFactor splitCol r) rs

/-- `for col in adjust_cols: ticker_df[col] = ticker_df[col] *
ticker_df['cum_adj_factor']` (one row). -/
def mulAdjust (adjustCols : List String) (r : Record) : Record :=
  { r with cols := fun c =>
      if c ∈ adjustCols then r.cols c * (r.cum_adj_factor.getD 1) else r.cols c }

/-- `for col in adjust_cols: ticker_df[col] = ticker_df[col] /
ticker_df['cum_adj_factor']` (one row). -/
def divAdjust (adjustCols : List String) (r : Record) : Record :=
  { r with cols := fun c =>
      if c ∈ adjustCols then r.cols c / (r.cum_adj_factor.getD 1) else r.cols c }

/-- Python `int()` truncation toward zero, on an exact rational. -/
def ratTrunc (q : ℚ) : ℚ := ((Int.tdiv q.num (q.den : ℤ)) : ℚ)

/-- The `astype` pass driven by DEFAULT_DTYPE_DICT: float64 columns are
unchanged, the `ticker` string column is unchanged, and `volume` is cast to
int64 (truncation toward zero). -/
def castCols (r : Record) : Record :=
  { r with cols := fun c => if c = "volume" then ratTrunc (r.cols c) else r.cols c }

/-- `ticker_df.drop(['adjust_factor', 'cum_adj_factor'], axis=1)` (one row). -/
def dropFactorCols (r : Record) : Record :=
  { r with adjust_factor := none, cum_adj_factor := none }

/-- The split-factor stage shared by both transforms: sort newest-first and
attach the adjust-factor and cumulative-adjustment-factor columns. -/
def factorStage (splitCol : String) (df : List Record) : List Record :=
  withFactors splitCol 1 (sortDesc df)

/-- `convert_price_to_raw` up to and including the multiplication by the
cumulative adjustment factor (still newest-first, factor columns kept). -/
def convertFactored (adjustCols : List String) (splitCol : String)
    (df : List Record) : List Record :=
  (factorStage splitCol df).map (mulAdjust adjustCols)

/-- The in-memory part of `convert_price_to_raw`: factor computation,
multiplication, re-sort ascending, dtype cast, optional drop of the factor
columns (src lines 77-96). -/
def convertCore (adjustCols : List String) (splitCol : String)
    (removeFactorColumns : Bool) (df : List Record) : List Record :=
  let d := (sortAsc (convertFactored adjustCols splitCol df)).map castCols
  if removeFactorColumns then d.map dropFactorCols else d

/-- `adjust_price` after the split-adjustment division (still newest-first,
factor columns kept). -/
def splitAdjusted (adjustCols : List String) (splitCol : String)
    (df : List Record) : List Record :=
  (factorStage splitCol df).map (divAdjust adjustCols)

/-- The dividend-adjustment loop of `adjust_price` (src lines 234-237):
`fwd_div = dividends.shift(1).fillna(0)`, `retention_rate = 1 - fwd_div /
close`, `accum_retention = retention_rate.cumprod()`, `adj_close =
accum_retention * close`.  `prevDiv` is the dividend value of the previous
(more recent) row, initially 0; `acc` is the running retention product,
initially 1. -/
def dividendPass (prevDiv acc : ℚ) : List Record → List Record
  | [] => []
  | r :: rs =>
      let fwd := prevDiv
      let ret := 1 - fwd / r.cols "close"
      let acc2 := acc * ret
      { r with fwd_div := some fwd, retention_rate := some ret,
               accum_retention := some acc2,
               adj_close := some (acc2 * r.cols "close") } ::
        dividendPass (r.cols "dividends") acc2 rs

/-- The in-memory part of `adjust_price` (src lines 223-239): sort
newest-first, split adjustment, dividend adjustment.  Note: unlike
`convert_price_to_raw` there is no re-sort ascending, no dtype cast and no
drop of derived columns before returning. -/
def adjustCore (adjustCols : List String) (splitCol : String)
    (df : List Record) : List Record :=
  dividendPass 0 1 (splitAdjusted adjustCols splitCol df)

/-!
Filesystem model and the full functions, side effects included.
-/

/-- The filesystem as the transforms observe it: `listdir` is
`os.listdir` (`none` when the directory does not exist, in which case
Python raises `FileNotFoundError`), `pathExists` is `os.path.exists`, and
`data` gives the rows stored in a parquet file (`pd.read_parquet` of a list
of paths concatenates their rows in order). -/
structure FS where
  listdir : String → Option (List String)
  pathExists : String → Bool
  data : String → List Record

/-- `'{:02d}'.format(month)`. -/
def monthStr (m : Nat) : String :=
  if m < 10 then "0" ++ toString m else toString m

def splitSlashAux : List Char → List Char → List String
  | [], acc => [String.mk acc.reverse]
  | c :: cs, acc =>
      if c = '/' then String.mk acc.reverse :: splitSlashAux cs []
      else splitSlashAux cs (c :: acc)

/-- Python `path.split('/')`: split on every slash, keeping empty pieces. -/
def pathSplit (s : String) : List String := splitSlashAux s.data []

def parseNatAux : List Char → Nat → Option Nat
  | [], acc => some acc
  | c :: cs, acc =>
      if '0' ≤ c ∧ c ≤ '9' then parseNatAux cs (acc * 10 + (c.toNat - '0'.toNat))
      else none

/-- Python `int(s)` on the strings this pipeline produces (unsigned decimal
digit strings; anything else raises ValueError, modelled as `none`). -/
def pythonInt (s : String) : Option Nat :=
  match s.data with
  | [] => none
  | _ :: _ => parseNatAux s.data 0

/-- The candidate file path `f'{base_path}/{year}/{m_str}/{ticker}.parquet'`. -/
def partitionPath (base : String) (y m : Nat) (ticker : String) : String :=
  base ++ "/" ++ toString y ++ "/" ++ monthStr m ++ "/" ++ ticker ++ ".parquet"

/-- The `(year, month)` pairs visited by the nested loops
`for year in range(first_year, last_year + 1): for month in range(1, 13)`. -/
def ymPairs (firstYear lastYear : Nat) : List (Nat × Nat) :=
  (List.range' firstYear (lastYear + 1 - firstYear)).flatMap
    (fun y => (List.range' 1 12).map (fun m => (y, m)))

/-- The body of `get_parquet_paths` over an explicit `(year, month)` list.
With no ticker, `os.listdir` of each year/month directory is appended
(raising `FileNotFoundError` when the directory is missing); with a
ticker, the ticker's file path is appended when it exists. -/
def collectPaths (fs : FS) (base : String) (ticker : Option String) :
    List (Nat × Nat) → Except String (List String)
  | [] => .ok []
  | (y, m) :: rest =>
      match ticker with
      | none =>
          match fs.listdir (base ++ "/" ++ toString y ++ "/" ++ monthStr m) with
          | none => .error "FileNotFoundError"
          | some entries =>
              (collectPaths fs base ticker rest).map (fun ps => entries ++ ps)
      | some t =>
          (collectPaths fs base ticker rest).map (fun ps =>
            if fs.pathExists (partitionPath base y m t) then
              partitionPath base y m t :: ps
            else ps)

/-- `get_parquet_paths` (src lines 17-45). -/
def get_parquet_paths (fs : FS) (base : String) (firstYear lastYear : Nat)
    (ticker : Option String) : Except String (List String) :=
  collectPaths fs base ticker (ymPairs firstYear lastYear)

/-- A side effect of the persistence loop: `ensureDir p` is the
`if not os.path.exists(p): os.mkdir(p)` pattern, `writeParquet p rows` is
`rows.to_parquet(p)`. -/
inductive Effect where
  | ensureDir (path : String)
  | writeParquet (path : String) (rows : List Record)

/-- A side effect with the written rows reduced to their timestamp keys
(used to state concrete facts about effect traces). -/
inductive EffectShape where
  | dir (path : String)
  | file (path : String) (keys : List Nat)
deriving DecidableEq, Repr

def effectShape : Effect → EffectShape
  | .ensureDir p => .dir p
  | .writeParquet p rows => .file p (rows.map (fun r => dateKey r.date))

/-- The persistence loop of `convert_price_to_raw` (src lines 97-110): for
each originally discovered path, take components 4 and 5 of
`path.split('/')` as the year and month strings, keep the output rows whose timestamp's
year and month equal `int(year)` and `int(month)`, ensure the year and
month directory levels exist, and write the partition file.  Returns the
effects performed plus the exception, if any, that stopped the loop
(`IndexError` when the path has at most 5 components, `ValueError` when
`int()` fails). -/
def savePlan (exportBase ticker : String) (out : List Record) :
    List String → List Effect × Option String
  | [] => ([], none)
  | p :: ps =>
      match (pathSplit p).get? 4, (pathSplit p).get? 5 with
      | some ys, some ms =>
          match pythonInt ys, pythonInt ms with
          | some y, some m =>
              let monthDf := out.filter
                (fun r => r.date.year == y && r.date.month == m)
              let yearPath := exportBase ++ "/" ++ ys
              let monthPath := yearPath ++ "/" ++ ms
              let rest := savePlan exportBase ticker out ps
              (Effect.ensureDir yearPath :: Effect.ensureDir monthPath ::
                 Effect.writeParquet (monthPath ++ "/" ++ ticker ++ ".parquet") monthDf ::
                 rest.1, rest.2)
          | _, _ => ([], some "ValueError")
      | _, _ => ([], some "IndexError")

/-- Outcome of running one of the full transforms: the value it returns
(`none` models Python's `None`), the side effects it performed, and the
exception it raised, if any. -/
structure RunResult where
  result : Option (List Record)
  effects : List Effect
  error : Option String

/-- `convert_price_to_raw` (src lines 47-112): resolve paths, return `None`
silently when no partition exists, otherwise load, transform, and either
persist per original partition (returning `None`) or return the frame. -/
def convert_price_to_raw (fs : FS) (ticker base exportBase : String)
    (firstYear lastYear : Nat) (adjustCols : List String) (splitCol : String)
    (removeFactorColumns saveData : Bool) : RunResult :=
  match get_parquet_paths fs base firstYear lastYear (some ticker) with
  | .error e => ⟨none, [], some e⟩
  | .ok paths =>
      if paths.isEmpty then ⟨none, [], none⟩
      else
        let out := convertCore adjustCols splitCol removeFactorColumns
          ((paths.map fs.data).flatten)
        if saveData then
          ⟨none, (savePlan exportBase ticker out paths).1,
            (savePlan exportBase ticker out paths).2⟩
        else ⟨some out, [], none⟩

/-- `adjust_price` (src lines 191-239): resolve paths, return `None`
silently when no partition exists, otherwise load and transform.  The
`exportBase` and `saveResult` parameters are accepted but never read, and
no effect is ever performed. -/
def adjust_price (fs : FS) (ticker base exportBase : String)
    (firstYear lastYear : Nat) (adjustCols : List String) (splitCol : String)
    (saveResult : Bool) : RunResult :=
  match get_parquet_paths fs base firstYear lastYear (some ticker) with
  | .error e => ⟨none, [], some e⟩
  | .ok paths =>
      if paths.isEmpty then ⟨none, [], none⟩
      else ⟨some (adjustCore adjustCols splitCol ((paths.map fs.data).flatten)), [], none⟩

/-- The timestamp keys of the returned frame, when one is returned. -/
def resultKeys (r : RunResult) : Option (List Nat) :=
  r.result.map (List.map (fun x => dateKey x.date))

/-!
Extended-value (IEEE-style) model for the one claim about infinity/NaN
propagation.  `pandas`/`numpy` elementwise arithmetic on float64 does not
raise on division by zero; it produces ±infinity or NaN.  `PFloat` models
float64 values as exact rationals extended with those flags (rounding is
irrelevant to finite-versus-flagged classification).
-/

inductive PFloat where
  | fin (q : ℚ)
  | inf
  | ninf
  | nan
deriving DecidableEq, Repr

namespace PFloat

def isFinite : PFloat → Bool
  | fin _ => true
  | _ => false

/-- float64 multiplication on extended values. -/
def mul : PFloat → PFloat → PFloat
  | nan, _ => nan
  | fin a, fin b => fin (a * b)
  | fin a, inf => if a = 0 then nan else if 0 < a then inf else ninf
  | fin a, ninf => if a = 0 then nan else if 0 < a then ninf else inf
  | fin _, nan => nan
  | inf, fin b => if b = 0 then nan else if 0 < b then inf else ninf
  | inf, inf => inf
  | inf, ninf => ninf
  | inf, nan => nan
  | ninf, fin b => if b = 0 then nan else if 0 < b then ninf else inf
  | ninf, inf => ninf
  | ninf, ninf => inf
  | ninf, nan => nan

/-- float64 subtraction on extended values. -/
def sub : PFloat → PFloat → PFloat
  | nan, _ => nan
  | fin a, fin b => fin (a - b)
  | fin _, inf => ninf
  | fin _, ninf => inf
  | fin _, nan => nan
  | inf, fin _ => inf
  | inf, inf => nan
  | inf, ninf => inf
  | inf, nan => nan
  | ninf, fin _ => ninf
  | ninf, inf => ninf
  | ninf, ninf => nan
  | ninf, nan => nan

/-- float64 division on extended values (zeros are +0, as produced by the
pipeline's data). -/
def div : PFloat → PFloat → PFloat
  | nan, _ => nan
  | fin a, fin b =>
      if b = 0 then (if a = 0 then nan else if 0 < a then inf else ninf)
      else fin (a / b)
  | fin _, inf => fin 0
  | fin _, ninf => fin 0
  | fin _, nan => nan
  | inf, fin b => if 0 ≤ b then inf else ninf
  | inf, _ => nan
  | ninf, fin b => if 0 ≤ b then ninf else inf
  | ninf, _ => nan

end PFloat

/-- The `close` and `dividends` columns of one row as they stand when the
dividend-adjustment stage of `adjust_price` runs (i.e. after the
split-adjustment division). -/
structure FRow where
  close : PFloat
  dividends : PFloat
deriving DecidableEq, Repr

/-- The derived columns the dividend-adjustment stage produces for one row. -/
structure FOut where
  fwd_div : PFloat
  retention_rate : PFloat
  accum_retention : PFloat
  adj_close : PFloat
deriving DecidableEq, Repr

/-- Float64 model of the dividend-adjustment stage of `adjust_price`
(src lines 234-237), the same recursion as `dividendPass` but over
extended values: elementwise `pandas` arithmetic never raises, so the
stage is a total function and division by a zero close is flagged as
±infinity or NaN. -/
def dividendPassF (prevDiv acc : PFloat) : List FRow → List FOut
  | [] => []
  | r :: rs =>
      let ret := PFloat.sub (.fin 1) (PFloat.div prevDiv r.close)
      let acc2 := PFloat.mul acc ret
      ⟨prevDiv, ret, acc2, PFloat.mul acc2 r.close⟩ ::
        dividendPassF r.dividends acc2 rs

/-!
Spec-level formulas for the dividend-adjustment columns, following the
wording of the specification (stated over the split-adjusted,
descending-ordered series `l`): the forward-dividend of a row is the
dividend value of the next more-recent row (the prior row in descending
order), the newest (first) row having forward-dividend 0; the
retention-rate is 1 minus forward-dividend over close; the cumulative
retention is the unshifted running product of retention-rates; the
adjusted close is cumulative retention times close.
-/

def fwdSpec (l : List Record) : Nat → ℚ
  | 0 => 0
  | i + 1 => ((l.get? i).map (fun r => r.cols "dividends")).getD 0

def closeAt (l : List Record) (i : Nat) : ℚ :=
  ((l.get? i).map (fun r => r.cols "close")).getD 0

def retSpec (l : List Record) (i : Nat) : ℚ :=
  1 - fwdSpec l i / closeAt l i

def accumSpec (l : List Record) (i : Nat) : ℚ :=
  ((List.range (i + 1)).map (retSpec l)).prod

/-- A concrete series whose newest-to-oldest split-ratio sequence is
[1, 1, 2, 1]. -/
def mkRow (d : Date) (split : ℚ) : Record :=
  { date := d, ticker := "ABC",
    cols := fun c => if c = "stock splits" then split else 1 }

def c1Example : List Record :=
  [mkRow ⟨2022, 1, 4⟩ 1, mkRow ⟨2022, 1, 3⟩ 1, mkRow ⟨2022, 1, 2⟩ 2,
   mkRow ⟨2022, 1, 1⟩ 1]

/-!
Generalizations of the spec formulas with an explicit starting
forward-dividend `p` (the recursion of `dividendPass` shifts the series by
one row, so the inductive characterization needs the start value free).
-/

def fwdP (p : ℚ) (l : List Record) : Nat → ℚ
  | 0 => p
  | i + 1 => ((l.get? i).map (fun r => r.cols "dividends")).getD 0

def retP (p : ℚ) (l : List Record) (i : Nat) : ℚ :=
  1 - fwdP p l i / closeAt l i

def prodRetP (p : ℚ) (l : List Record) (i : Nat) : ℚ :=
  ((List.range (i + 1)).map (retP p l)).prod

/-- A two-row series (newest first) with a dividend of 5 paid in the newest
period, no splits, close 10 everywhere. -/
def mkRow2 (dt : Date) (dv : ℚ) : Record :=
  { date := dt, ticker := "ABC",
    cols := fun c => if c = "dividends" then dv
      else if c = "stock splits" then 0 else 10 }

def c2Example : List Record := [mkRow2 ⟨2020, 1, 2⟩ 5, mkRow2 ⟨2020, 1, 1⟩ 0]

/-- The first (newest) row of `c2Example` as it stands after the
split-adjustment stage. -/
def c2Row0 : Record :=
  divAdjust default_adjust_cols
    { mkRow2 ⟨2020, 1, 2⟩ 5 with
        adjust_factor := some (adjFactor default_split_col (mkRow2 ⟨2020, 1, 2⟩ 5)),
        cum_adj_factor := some 1 }

/-- A filesystem with no directories and no files. -/
def fsEmpty : FS :=
  { listdir := fun _ => none,
    pathExists := fun _ => false,
    data := fun _ => [] }

/-- A two-row, no-split, no-dividend partition row. -/
def sampleRow (dt : Date) : Record :=
  { date := dt, ticker := "AAA",
    cols := fun c => if c = "stock splits" then 0
      else if c = "dividends" then 0
      else if c = "volume" then 7 else 10 }

/-- A filesystem holding exactly one partition file,
`data/2020/01/AAA.parquet`, with two rows (2020-01-02 and 2020-01-01). -/
def fsOne : FS :=
  { listdir := fun _ => none,
    pathExists := fun p => p == "data/2020/01/AAA.parquet",
    data := fun p => if p == "data/2020/01/AAA.parquet" then
        [sampleRow ⟨2020, 1, 2⟩, sampleRow ⟨2020, 1, 1⟩] else [] }

/-- The timestamp keys of a frame's rows, in row order. -/
def keysOf (l : List Record) : List Nat := l.map (fun r => dateKey r.date)

/-- A filesystem whose base path has five slash-separated components
(`9/9/9/9/9`), chosen so that path components 4 and 5 are both numeric but
are NOT the partition's year and month.  Its one partition file,
`9/9/9/9/9/2020/01/AAA.parquet`, holds one row dated 2020-01-15. -/
def fs8 : FS :=
  { listdir := fun _ => none,
    pathExists := fun p => p == "9/9/9/9/9/2020/01/AAA.parquet",
    data := fun p => if p == "9/9/9/9/9/2020/01/AAA.parquet" then
        [sampleRow ⟨2020, 1, 15⟩] else [] }

/-- A filesystem whose base path has exactly four slash-separated
components (`/d/x/y`), the layout the persistence loop's hardcoded indices
assume.  Its one partition file holds one row dated 2020-01-15. -/
def fsW : FS :=
  { listdir := fun _ => none,
    pathExists := fun p => p == "/d/x/y/2020/01/AAA.parquet",
    data := fun p => if p == "/d/x/y/2020/01/AAA.parquet" then
        [sampleRow ⟨2020, 1, 15⟩] else [] }

/-!
Helper lemmas.
-/

/-- Pointwise description of `withFactors`: row `i` keeps its data, gains
its adjust-factor, and gains the accumulator times the product of the
adjust-factors of the rows before it. -/
theorem withFactors_get (sc : String) :
    ∀ (l : List Record) (a : ℚ) (i : Nat) (r : Record), l.get? i = some r →
      (withFactors sc a l).get? i =
        some { r with adjust_factor := some (adjFactor sc r),
                      cum_adj_factor := some (a * ((l.take i).map (adjFactor sc)).prod) }
  | [], _, i, r => by simp
  | x :: xs, a, 0, r => by
      intro h
      rw [List.get?_cons_zero] at h
      cases h
      simp [withFactors]
  | x :: xs, a, i + 1, r => by
      intro h
      rw [List.get?_cons_succ] at h
      have ih := withFactors_get sc xs (a * adjFactor sc x) i r h
      rw [withFactors, List.get?_cons_succ, ih]
      have hp : (((x :: xs).take (i + 1)).map (adjFactor sc)).prod =
          adjFactor sc x * ((xs.take i).map (adjFactor sc)).prod := by
        rw [List.take_succ_cons, List.map_cons, List.prod_cons]
      rw [hp, ← mul_assoc]

theorem dividendPass_map_cum :
    ∀ (l : List Record) (p a : ℚ),
      (dividendPass p a l).map (fun r => r.cum_adj_factor) =
        l.map (fun r => r.cum_adj_factor) := by
  intro l
  induction l with
  | nil => intro p a; rfl
  | cons r rs ih => intro p a; simp [dividendPass, ih]

/-!
Claim theorems.
-/

/-- Claim C1: both `convert_price_to_raw` and `adjust_price`, after sorting
descending by timestamp, compute a per-record adjust-factor equal to 1 when
the split-ratio is 0 and to the split-ratio otherwise, and a
cumulative-adjustment-factor at row i equal to the product of the
adjust-factors of rows 0..i-1 (first row 1); on the split-ratio sequence
[1, 1, 2, 1] (newest to oldest) the cumulative factors are [1, 1, 1, 2]. -/
theorem c1_split_factor_columns :
    (∀ (sc : String) (df : List Record) (i : Nat) (r : Record),
        (sortDesc df).get? i = some r →
          adjFactor sc r = (if r.cols sc = 0 then 1 else r.cols sc) ∧
          (factorStage sc df).get? i =
            some { r with adjust_factor := some (adjFactor sc r),
                          cum_adj_factor :=
                            some ((((sortDesc df).take i).map (adjFactor sc)).prod) }) ∧
    (∀ (ac : List String) (sc : String) (df : List Record),
        (convertFactored ac sc df).map (fun r => r.cum_adj_factor) =
            (factorStage sc df).map (fun r => r.cum_adj_factor) ∧
          (adjustCore ac sc df).map (fun r => r.cum_adj_factor) =
            (factorStage sc df).map (fun r => r.cum_adj_factor)) ∧
    (factorStage default_split_col c1Example).map (fun r => r.cum_adj_factor) =
      [some 1, some 1, some 1, some 2] := by
  refine ⟨?_, ?_, ?_⟩
  · intro sc df i r h
    refine ⟨rfl, ?_⟩
    have hw := withFactors_get sc (sortDesc df) 1 i r h
    simpa [factorStage] using hw
  · intro ac sc df
    constructor
    · rw [convertFactored, List.map_map]
      rfl
    · rw [adjustCore, splitAdjusted, dividendPass_map_cum, List.map_map]
      rfl
  · norm_num [factorStage, c1Example, sortDesc, List.insertionSort,
      List.orderedInsert, mkRow, dateKey, withFactors, adjFactor,
      default_split_col, List.prod_cons]

/-- Witness for C1 at the third row (index 2) of the example series: its
cumulative-adjustment-factor is the product of the adjust-factors of the
two rows before it. -/
theorem c1_split_factor_columns_witness :
    (sortDesc c1Example).get? 2 = some (mkRow ⟨2022, 1, 2⟩ 2) ∧
    (factorStage default_split_col c1Example).get? 2 =
      some { mkRow ⟨2022, 1, 2⟩ 2 with
               adjust_factor := some (adjFactor default_split_col (mkRow ⟨2022, 1, 2⟩ 2)),
               cum_adj_factor :=
                 some ((((sortDesc c1Example).take 2).map
                   (adjFactor default_split_col)).prod) } :=
  ⟨rfl, (c1_split_factor_columns.1 default_split_col c1Example 2
      (mkRow ⟨2022, 1, 2⟩ 2) rfl).2⟩

theorem fwdP_succ (p : ℚ) (r : Record) (rs : List Record) :
    ∀ i, fwdP p (r :: rs) (i + 1) = fwdP (r.cols "dividends") rs i
  | 0 => rfl
  | _ + 1 => rfl

theorem closeAt_succ (r : Record) (rs : List Record) (i : Nat) :
    closeAt (r :: rs) (i + 1) = closeAt rs i := rfl

theorem retP_succ (p : ℚ) (r : Record) (rs : List Record) (i : Nat) :
    retP p (r :: rs) (i + 1) = retP (r.cols "dividends") rs i := by
  rw [retP, retP, fwdP_succ, closeAt_succ]

theorem prodRetP_succ (p : ℚ) (r : Record) (rs : List Record) (i : Nat) :
    prodRetP p (r :: rs) (i + 1) =
      retP p (r :: rs) 0 * prodRetP (r.cols "dividends") rs i := by
  rw [prodRetP, prodRetP, List.range_succ_eq_map, List.map_cons, List.prod_cons,
    List.map_map]
  have hf : retP p (r :: rs) ∘ Nat.succ = retP (r.cols "dividends") rs :=
    funext fun j => retP_succ p r rs j
  rw [hf]

/-- Pointwise description of `dividendPass`: row `i` keeps its data and
gains the four dividend-adjustment columns, with forward-dividend `fwdP`,
retention-rate `retP` and the accumulator times the running retention
product. -/
theorem dividendPass_get :
    ∀ (l : List Record) (p a : ℚ) (i : Nat) (r : Record), l.get? i = some r →
      (dividendPass p a l).get? i =
        some { r with
          fwd_div := some (fwdP p l i),
          retention_rate := some (retP p l i),
          accum_retention := some (a * prodRetP p l i),
          adj_close := some (a * prodRetP p l i * r.cols "close") }
  | [], _, _, i, r => by simp
  | x :: xs, p, a, 0, r => by
      intro h
      rw [List.get?_cons_zero] at h
      cases h
      have h1 : prodRetP p (x :: xs) 0 = retP p (x :: xs) 0 := by
        have h0 : List.range 1 = [0] := rfl
        rw [prodRetP, h0, List.map_cons, List.map_nil, List.prod_cons,
          List.prod_nil, mul_one]
      simp only [dividendPass, List.get?_cons_zero, h1]
      rfl
  | x :: xs, p, a, i + 1, r => by
      intro h
      rw [List.get?_cons_succ] at h
      have ih := dividendPass_get xs (x.cols "dividends")
        (a * (1 - p / x.cols "close")) i r h
      simp only [dividendPass, List.get?_cons_succ]
      rw [ih, fwdP_succ, retP_succ, prodRetP_succ, ← mul_assoc]
      rfl

theorem fwdSpec_eq (l : List Record) : ∀ i, fwdSpec l i = fwdP 0 l i
  | 0 => rfl
  | _ + 1 => rfl

theorem retSpec_eq (l : List Record) (i : Nat) : retSpec l i = retP 0 l i := by
  rw [retSpec, retP, fwdSpec_eq]

theorem accumSpec_eq (l : List Record) (i : Nat) : accumSpec l i = prodRetP 0 l i := by
  rw [accumSpec, prodRetP]
  have hf : retSpec l = retP 0 l := funext fun j => retSpec_eq l j
  rw [hf]

/-- Claim C2 (amended): in the Price Adjuster, after the split adjustment
and in descending timestamp order, the forward-dividend at a row equals the
dividend value of the next more-recent row (the prior row in descending
order), with the NEWEST (first) row's forward-dividend equal to 0 — the
claim instead asserts the earliest (last) row's forward-dividend is 0,
which the code contradicts; retention-rate is 1 minus forward-dividend
over close, cumulative retention is the unshifted running product of
retention-rates from newest to oldest, and adjusted-close is cumulative
retention times close, all as claimed. -/
theorem c2_dividend_columns :
    ∀ (ac : List String) (sc : String) (df : List Record) (i : Nat) (r : Record),
      (splitAdjusted ac sc df).get? i = some r →
        (adjustCore ac sc df).get? i =
          some { r with
            fwd_div := some (fwdSpec (splitAdjusted ac sc df) i),
            retention_rate := some (retSpec (splitAdjusted ac sc df) i),
            accum_retention := some (accumSpec (splitAdjusted ac sc df) i),
            adj_close :=
              some (accumSpec (splitAdjusted ac sc df) i * r.cols "close") } := by
  intro ac sc df i r h
  have hd := dividendPass_get (splitAdjusted ac sc df) 0 1 i r h
  rw [adjustCore, hd, fwdSpec_eq, retSpec_eq, accumSpec_eq, one_mul]

/-- Counterexample to claim C2 as stated: on `c2Example` (a dividend of 5
in the newest period), the forward-dividend column of `adjust_price`'s
output is [0, 5] in descending order — the earliest (last) row carries the
newest row's dividend 5, not 0; it is the newest (first) row whose
forward-dividend is 0. -/
theorem c2_dividend_columns_counterexample :
    (adjustCore default_adjust_cols default_split_col c2Example).map
        (fun r => (dateKey r.date, r.fwd_div)) =
      [(20200102, some 0), (20200101, some 5)] ∧ (5 : ℚ) ≠ 0 := by
  constructor
  · norm_num [adjustCore, splitAdjusted, factorStage, sortDesc, c2Example,
      List.insertionSort, List.orderedInsert, mkRow2, dateKey, withFactors,
      adjFactor, divAdjust, dividendPass, default_split_col,
      default_adjust_cols]
  · norm_num

/-- Witness for C2 at the newest row of `c2Example`: its forward-dividend
is `fwdSpec _ 0 = 0`. -/
theorem c2_dividend_columns_witness :
    (splitAdjusted default_adjust_cols default_split_col c2Example).get? 0 =
        some c2Row0 ∧
      (adjustCore default_adjust_cols default_split_col c2Example).get? 0 =
        some { c2Row0 with
          fwd_div :=
            some (fwdSpec (splitAdjusted default_adjust_cols default_split_col
              c2Example) 0),
          retention_rate :=
            some (retSpec (splitAdjusted default_adjust_cols default_split_col
              c2Example) 0),
          accum_retention :=
            some (accumSpec (splitAdjusted default_adjust_cols default_split_col
              c2Example) 0),
          adj_close :=
            some (accumSpec (splitAdjusted default_adjust_cols default_split_col
              c2Example) 0 * c2Row0.cols "close") } :=
  ⟨rfl, c2_dividend_columns default_adjust_cols default_split_col c2Example 0
    c2Row0 rfl⟩

theorem collectPaths_some_ok (fs : FS) (base t : String) :
    ∀ pairs : List (Nat × Nat),
      ∃ l, collectPaths fs base (some t) pairs = .ok l
  | [] => ⟨[], rfl⟩
  | (y, m) :: rest => by
      obtain ⟨l, hl⟩ := collectPaths_some_ok fs base t rest
      refine ⟨if fs.pathExists (partitionPath base y m t) then
        partitionPath base y m t :: l else l, ?_⟩
      simp only [collectPaths, hl, Except.map]

theorem collectPaths_some_nodata (fs : FS) (base t : String)
    (h : ∀ y m, fs.pathExists (partitionPath base y m t) = false) :
    ∀ pairs : List (Nat × Nat),
      collectPaths fs base (some t) pairs = .ok []
  | [] => rfl
  | (y, m) :: rest => by
      have hr := collectPaths_some_nodata fs base t h rest
      simp only [collectPaths, hr, Except.map, h y m, Bool.false_eq_true,
        if_false]

/-- Claim C6 (amended): with a ticker specified, `get_parquet_paths` never
raises — a missing partition is silently skipped and a ticker with no data
across the whole range yields an empty list.  With no ticker specified the
claim fails: `os.listdir` is called on each year/month directory and a
missing directory raises `FileNotFoundError` (see the counterexample). -/
theorem c6_resolver_no_error :
    (∀ (fs : FS) (base : String) (fy ly : Nat) (t : String),
        ∃ l, get_parquet_paths fs base fy ly (some t) = .ok l) ∧
    (∀ (fs : FS) (base : String) (fy ly : Nat) (t : String),
        (∀ y m, fs.pathExists (partitionPath base y m t) = false) →
          get_parquet_paths fs base fy ly (some t) = .ok []) :=
  ⟨fun fs base fy ly t => collectPaths_some_ok fs base t (ymPairs fy ly),
   fun fs base fy ly t h => collectPaths_some_nodata fs base t h (ymPairs fy ly)⟩

/-- Counterexample to claim C6 as stated: with no ticker specified and a
missing year/month directory, `get_parquet_paths` raises
(`os.listdir` of a nonexistent directory). -/
theorem c6_resolver_no_error_counterexample :
    get_parquet_paths fsEmpty "data" 2020 2020 none =
      .error "FileNotFoundError" := rfl

/-- Witness for C6: a ticker with no data in the whole range resolves to
the empty list without an error. -/
theorem c6_resolver_no_error_witness :
    get_parquet_paths fsEmpty "data" 2020 2020 (some "AAA") = .ok [] :=
  c6_resolver_no_error.2 fsEmpty "data" 2020 2020 "AAA" (fun _ _ => rfl)

/-- Claim C7: when the resolved partition list of a ticker is empty, both
`convert_price_to_raw` and `adjust_price` return `None`, perform no write,
and raise no error. -/
theorem c7_empty_paths_noop :
    ∀ (fs : FS) (t base e : String) (fy ly : Nat) (ac : List String)
      (sc : String) (rf sd sr : Bool),
      get_parquet_paths fs base fy ly (some t) = .ok [] →
        convert_price_to_raw fs t base e fy ly ac sc rf sd = ⟨none, [], none⟩ ∧
          adjust_price fs t base e fy ly ac sc sr = ⟨none, [], none⟩ := by
  intro fs t base e fy ly ac sc rf sd sr h
  constructor
  · simp [convert_price_to_raw, h]
  · simp [adjust_price, h]

/-- Witness for C7: on a filesystem where the ticker has no partitions at
all, both transforms are silent no-ops. -/
theorem c7_empty_paths_noop_witness :
    get_parquet_paths fsEmpty "data" 2020 2020 (some "AAA") = .ok [] ∧
      (convert_price_to_raw fsEmpty "AAA" "data" "out" 2020 2020
          default_adjust_cols default_split_col true true = ⟨none, [], none⟩ ∧
        adjust_price fsEmpty "AAA" "data" "out" 2020 2020
          default_adjust_cols default_split_col false = ⟨none, [], none⟩) :=
  ⟨rfl, c7_empty_paths_noop fsEmpty "AAA" "data" "out" 2020 2020
    default_adjust_cols default_split_col true true false rfl⟩

/-- Claim C10: `adjust_price` never performs a file write, its result does
not depend on `save_result` or `export_base_path` in any way, and whenever
partitions exist it returns the transformed series. -/
theorem c10_adjust_frame :
    (∀ (fs : FS) (t base e1 e2 : String) (fy ly : Nat) (ac : List String)
        (sc : String) (s1 s2 : Bool),
        adjust_price fs t base e1 fy ly ac sc s1 =
          adjust_price fs t base e2 fy ly ac sc s2) ∧
    (∀ (fs : FS) (t base e : String) (fy ly : Nat) (ac : List String)
        (sc : String) (sr : Bool),
        (adjust_price fs t base e fy ly ac sc sr).effects = []) ∧
    (∀ (fs : FS) (t base e : String) (fy ly : Nat) (ac : List String)
        (sc : String) (sr : Bool) (paths : List String),
        get_parquet_paths fs base fy ly (some t) = .ok paths → paths ≠ [] →
          adjust_price fs t base e fy ly ac sc sr =
            ⟨some (adjustCore ac sc ((paths.map fs.data).flatten)), [], none⟩) := by
  refine ⟨fun _ _ _ _ _ _ _ _ _ _ _ => rfl, ?_, ?_⟩
  · intro fs t base e fy ly ac sc sr
    simp only [adjust_price]
    cases hp : get_parquet_paths fs base fy ly (some t) with
    | error err => rfl
    | ok paths => cases paths with
      | nil => rfl
      | cons a l => rfl
  · intro fs t base e fy ly ac sc sr paths hp hne
    simp only [adjust_price, hp]
    cases paths with
    | nil => exact absurd rfl hne
    | cons a l => rfl

/-- Witness for C10: on `fsOne` the ticker has one partition and
`adjust_price` returns the transformed series with no effects. -/
theorem c10_adjust_frame_witness :
    get_parquet_paths fsOne "data" 2020 2020 (some "AAA") =
        .ok ["data/2020/01/AAA.parquet"] ∧
      adjust_price fsOne "AAA" "data" "out" 2020 2020 default_adjust_cols
          default_split_col false =
        ⟨some (adjustCore default_adjust_cols default_split_col
          ((["data/2020/01/AAA.parquet"].map fsOne.data).flatten)), [], none⟩ :=
  ⟨rfl, c10_adjust_frame.2.2 fsOne "AAA" "data" "out" 2020 2020
    default_adjust_cols default_split_col false ["data/2020/01/AAA.parquet"]
    rfl (by decide)⟩

theorem keysOf_map (f : Record → Record) (hf : ∀ r, (f r).date = r.date)
    (l : List Record) : keysOf (l.map f) = keysOf l := by
  rw [keysOf, keysOf, List.map_map]
  have hcomp : ((fun r => dateKey r.date) ∘ f) = fun r : Record => dateKey r.date :=
    funext fun r => by simp [Function.comp, hf r]
  rw [hcomp]

theorem keysOf_withFactors (sc : String) :
    ∀ (a : ℚ) (l : List Record), keysOf (withFactors sc a l) = keysOf l
  | _, [] => rfl
  | a, r :: rs => by
      show dateKey r.date :: keysOf (withFactors sc (a * adjFactor sc r) rs) =
        dateKey r.date :: keysOf rs
      rw [keysOf_withFactors sc (a * adjFactor sc r) rs]

theorem keysOf_dividendPass :
    ∀ (p a : ℚ) (l : List Record), keysOf (dividendPass p a l) = keysOf l
  | _, _, [] => rfl
  | p, a, r :: rs => by
      show dateKey r.date :: keysOf (dividendPass _ _ rs) =
        dateKey r.date :: keysOf rs
      rw [keysOf_dividendPass]

theorem sorted_keysOf_sortAsc (l : List Record) :
    List.Sorted (· ≤ ·) (keysOf (sortAsc l)) := by
  have h : List.Sorted ascR (sortAsc l) := List.sorted_insertionSort ascR l
  exact (List.pairwise_map).mpr h

theorem sorted_keysOf_sortDesc (l : List Record) :
    List.Sorted (· ≥ ·) (keysOf (sortDesc l)) := by
  have h : List.Sorted descR (sortDesc l) := List.sorted_insertionSort descR l
  exact (List.pairwise_map).mpr h

theorem keysOf_convertCore (ac : List String) (sc : String) (rf : Bool)
    (df : List Record) :
    keysOf (convertCore ac sc rf df) =
      keysOf (sortAsc (convertFactored ac sc df)) := by
  cases rf
  · exact keysOf_map castCols (fun r => rfl) _
  · show keysOf (((sortAsc (convertFactored ac sc df)).map castCols).map
      dropFactorCols) = _
    rw [keysOf_map dropFactorCols (fun r => rfl),
      keysOf_map castCols (fun r => rfl)]

theorem keysOf_adjustCore (ac : List String) (sc : String) (df : List Record) :
    keysOf (adjustCore ac sc df) = keysOf (sortDesc df) := by
  rw [adjustCore, keysOf_dividendPass, splitAdjusted,
    keysOf_map (divAdjust ac) (fun r => rfl), factorStage, keysOf_withFactors]

/-- Claim C5 (amended): `convert_price_to_raw` returns its series sorted
ascending by timestamp; `adjust_price` sorts descending internally and
returns the series STILL IN DESCENDING ORDER — it never re-sorts ascending
before returning, contrary to the claim (see the counterexample). -/
theorem c5_output_order :
    (∀ (fs : FS) (t base e : String) (fy ly : Nat) (ac : List String)
        (sc : String) (rf : Bool) (out : List Record) (effs : List Effect)
        (err : Option String),
        convert_price_to_raw fs t base e fy ly ac sc rf false =
          ⟨some out, effs, err⟩ → List.Sorted (· ≤ ·) (keysOf out)) ∧
    (∀ (fs : FS) (t base e : String) (fy ly : Nat) (ac : List String)
        (sc : String) (sr : Bool) (out : List Record) (effs : List Effect)
        (err : Option String),
        adjust_price fs t base e fy ly ac sc sr = ⟨some out, effs, err⟩ →
          List.Sorted (· ≥ ·) (keysOf out)) := by
  constructor
  · intro fs t base e fy ly ac sc rf out effs err h
    rw [convert_price_to_raw] at h
    cases hp : get_parquet_paths fs base fy ly (some t) with
    | error e2 => rw [hp] at h; simp at h
    | ok paths =>
        rw [hp] at h
        cases paths with
        | nil => simp at h
        | cons a l =>
            simp only [List.isEmpty_cons, if_false, Bool.false_eq_true] at h
            have hout : convertCore ac sc rf (((a :: l).map fs.data).flatten) = out := by
              have := congrArg RunResult.result h
              simpa using this
            rw [← hout, keysOf_convertCore]
            exact sorted_keysOf_sortAsc _
  · intro fs t base e fy ly ac sc sr out effs err h
    rw [adjust_price] at h
    cases hp : get_parquet_paths fs base fy ly (some t) with
    | error e2 => rw [hp] at h; simp at h
    | ok paths =>
        rw [hp] at h
        cases paths with
        | nil => simp at h
        | cons a l =>
            simp only [List.isEmpty_cons, if_false, Bool.false_eq_true] at h
            have hout : adjustCore ac sc (((a :: l).map fs.data).flatten) = out := by
              have := congrArg RunResult.result h
              simpa using this
            rw [← hout, keysOf_adjustCore]
            exact sorted_keysOf_sortDesc _

/-- Counterexample to claim C5 as stated: on the one-partition filesystem
`fsOne`, `adjust_price` returns its two rows with keys
[20200102, 20200101] — descending, not ascending by timestamp. -/
theorem c5_output_order_counterexample :
    resultKeys (adjust_price fsOne "AAA" "data" "out" 2020 2020
        default_adjust_cols default_split_col false) =
      some [20200102, 20200101] ∧
    ¬ List.Sorted (· ≤ ·) [20200102, 20200101] := by
  constructor
  · rfl
  · intro h
    have := List.rel_of_sorted_cons h 20200101 (by simp)
    omega

/-- Witness for C5: the series `convert_price_to_raw` returns on `fsOne`
is ascending by timestamp. -/
theorem c5_output_order_witness :
    List.Sorted (· ≤ ·) (keysOf (convertCore default_adjust_cols
      default_split_col true ((["data/2020/01/AAA.parquet"].map
        fsOne.data).flatten))) :=
  c5_output_order.1 fsOne "AAA" "data" "out" 2020 2020 default_adjust_cols
    default_split_col true _ [] none rfl

theorem isFinite_mul_left :
    ∀ x y : PFloat, x.isFinite = false → (PFloat.mul x y).isFinite = false := by
  intro x y h
  cases x with
  | fin q => simp [PFloat.isFinite] at h
  | inf => cases y <;> first | rfl | (simp only [PFloat.mul]; split_ifs <;> rfl)
  | ninf => cases y <;> first | rfl | (simp only [PFloat.mul]; split_ifs <;> rfl)
  | nan => cases y <;> rfl

theorem isFinite_mul_right :
    ∀ x y : PFloat, y.isFinite = false → (PFloat.mul x y).isFinite = false := by
  intro x y h
  cases y with
  | fin q => simp [PFloat.isFinite] at h
  | inf => cases x <;> first | rfl | (simp only [PFloat.mul]; split_ifs <;> rfl)
  | ninf => cases x <;> first | rfl | (simp only [PFloat.mul]; split_ifs <;> rfl)
  | nan => cases x <;> rfl

theorem isFinite_sub_finite_right :
    ∀ (q : ℚ) (x : PFloat), x.isFinite = false →
      (PFloat.sub (.fin q) x).isFinite = false := by
  intro q x h
  cases x with
  | fin q2 => simp [PFloat.isFinite] at h
  | inf => rfl
  | ninf => rfl
  | nan => rfl

theorem isFinite_div_fin_zero :
    ∀ x : PFloat, (PFloat.div x (.fin 0)).isFinite = false := by
  intro x
  cases x <;>
    first
      | rfl
      | (simp only [PFloat.div]; split_ifs <;> rfl)

theorem dividendPassF_length :
    ∀ (rows : List FRow) (p a : PFloat),
      (dividendPassF p a rows).length = rows.length
  | [], _, _ => rfl
  | r :: rs, p, a => by
      show (dividendPassF _ _ rs).length + 1 = rs.length + 1
      rw [dividendPassF_length]

/-- Once the running retention product is flagged (±infinity or NaN),
every later row's cumulative retention and adjusted close stay flagged. -/
theorem dividendPassF_suffix_flagged :
    ∀ (rows : List FRow) (p a : PFloat), a.isFinite = false →
      ∀ (j : Nat) (o : FOut), (dividendPassF p a rows).get? j = some o →
        o.accum_retention.isFinite = false ∧ o.adj_close.isFinite = false
  | [], _, _, _, j, o => by simp [dividendPassF]
  | x :: xs, p, a, ha, 0, o => by
      intro h
      simp only [dividendPassF, List.get?_cons_zero] at h
      cases h
      refine ⟨isFinite_mul_left _ _ ha, ?_⟩
      exact isFinite_mul_left _ _ (isFinite_mul_left _ _ ha)
  | x :: xs, p, a, ha, j + 1, o => by
      intro h
      simp only [dividendPassF, List.get?_cons_succ] at h
      exact dividendPassF_suffix_flagged xs x.dividends
        (PFloat.mul a (PFloat.sub (.fin 1) (PFloat.div p x.close)))
        (isFinite_mul_left _ _ ha) j o h

/-- From a zero close at row `i` onward, retention at `i` and every later
cumulative retention and adjusted close are flagged, whatever the incoming
forward-dividend and accumulator are. -/
theorem dividendPassF_zero_close :
    ∀ (rows : List FRow) (p a : PFloat) (i : Nat) (r : FRow),
      rows.get? i = some r → r.close = .fin 0 →
        (∃ o, (dividendPassF p a rows).get? i = some o ∧
          o.retention_rate.isFinite = false) ∧
        (∀ (j : Nat) (o2 : FOut), i ≤ j →
          (dividendPassF p a rows).get? j = some o2 →
            o2.accum_retention.isFinite = false ∧
              o2.adj_close.isFinite = false)
  | [], _, _, i, r => by simp
  | x :: xs, p, a, 0, r => by
      intro h hc
      rw [List.get?_cons_zero] at h
      cases h
      have hret : (PFloat.sub (.fin 1) (PFloat.div p x.close)).isFinite = false := by
        rw [hc]
        exact isFinite_sub_finite_right 1 _ (isFinite_div_fin_zero p)
      constructor
      · refine ⟨⟨p, PFloat.sub (.fin 1) (PFloat.div p x.close),
          PFloat.mul a (PFloat.sub (.fin 1) (PFloat.div p x.close)),
          PFloat.mul (PFloat.mul a (PFloat.sub (.fin 1)
            (PFloat.div p x.close))) x.close⟩, ?_, hret⟩
        simp only [dividendPassF, List.get?_cons_zero]
      · intro j o2 hij h2
        cases j with
        | zero =>
            simp only [dividendPassF, List.get?_cons_zero] at h2
            cases h2
            refine ⟨isFinite_mul_right _ _ hret, ?_⟩
            exact isFinite_mul_left _ _ (isFinite_mul_right _ _ hret)
        | succ j2 =>
            simp only [dividendPassF, List.get?_cons_succ] at h2
            exact dividendPassF_suffix_flagged xs _ _
              (isFinite_mul_right _ _ hret) j2 o2 h2
  | x :: xs, p, a, i + 1, r => by
      intro h hc
      rw [List.get?_cons_succ] at h
      have ih := dividendPassF_zero_close xs x.dividends
        (PFloat.mul a (PFloat.sub (.fin 1) (PFloat.div p x.close))) i r h hc
      constructor
      · obtain ⟨o, ho, hro⟩ := ih.1
        exact ⟨o, by simp only [dividendPassF, List.get?_cons_succ]; exact ho, hro⟩
      · intro j o2 hij h2
        cases j with
        | zero => omega
        | succ j2 =>
            simp only [dividendPassF, List.get?_cons_succ] at h2
            exact ih.2 j2 o2 (Nat.le_of_succ_le_succ hij) h2

/-- Claim C9: with a close of exactly 0 at some row, `adjust_price`'s
dividend-adjustment stage still completes over the whole series (pandas
elementwise float64 arithmetic does not raise on division by zero), and the
affected row's retention-rate, together with every cumulative-retention and
adjusted-close value from that row onward, is surfaced as a flagged
(±infinity or NaN) value in the output. -/
theorem c9_zero_close_flagged :
    ∀ (rows : List FRow) (i : Nat) (r : FRow),
      rows.get? i = some r → r.close = .fin 0 →
        (dividendPassF (.fin 0) (.fin 1) rows).length = rows.length ∧
        (∃ o, (dividendPassF (.fin 0) (.fin 1) rows).get? i = some o ∧
          o.retention_rate.isFinite = false) ∧
        (∀ (j : Nat) (o2 : FOut), i ≤ j →
          (dividendPassF (.fin 0) (.fin 1) rows).get? j = some o2 →
            o2.accum_retention.isFinite = false ∧
              o2.adj_close.isFinite = false) := by
  intro rows i r h hc
  have hz := dividendPassF_zero_close rows (.fin 0) (.fin 1) i r h hc
  exact ⟨dividendPassF_length rows _ _, hz.1, hz.2⟩

/-- Witness for C9: a one-row series with close 0 and dividend 0 — the
retention-rate is NaN (0/0), and the cumulative retention and adjusted
close are flagged. -/
theorem c9_zero_close_flagged_witness :
    ([(⟨.fin 0, .fin 0⟩ : FRow)].get? 0 = some ⟨.fin 0, .fin 0⟩) ∧
      ((⟨.fin 0, .fin 0⟩ : FRow).close = .fin 0) ∧
      ((dividendPassF (.fin 0) (.fin 1) [⟨.fin 0, .fin 0⟩]).length = 1 ∧
        (∃ o, (dividendPassF (.fin 0) (.fin 1) [⟨.fin 0, .fin 0⟩]).get? 0 =
            some o ∧ o.retention_rate.isFinite = false) ∧
        (∀ (j : Nat) (o2 : FOut), 0 ≤ j →
          (dividendPassF (.fin 0) (.fin 1) [⟨.fin 0, .fin 0⟩]).get? j =
              some o2 →
            o2.accum_retention.isFinite = false ∧
              o2.adj_close.isFinite = false)) :=
  ⟨rfl, rfl, c9_zero_close_flagged [⟨.fin 0, .fin 0⟩] 0 ⟨.fin 0, .fin 0⟩ rfl rfl⟩

theorem adjFactor_eq_one {sc : String} {r : Record}
    (h : r.cols sc = 0 ∨ r.cols sc = 1) : adjFactor sc r = 1 := by
  rcases h with h | h
  · rw [adjFactor, if_pos h]
  · rw [adjFactor, h]
    simp

/-- When every adjust-factor is 1, the cumulative factor stays at the
accumulator on every row. -/
theorem withFactors_one (sc : String) :
    ∀ (l : List Record) (a : ℚ), (∀ r ∈ l, adjFactor sc r = 1) →
      withFactors sc a l = l.map (fun r =>
        { r with adjust_factor := some (adjFactor sc r),
                 cum_adj_factor := some a })
  | [], _, _ => rfl
  | r :: rs, a, h => by
      have ha : a * adjFactor sc r = a := by
        rw [h r (List.mem_cons_self r rs), mul_one]
      simp only [withFactors, List.map_cons]
      rw [ha, withFactors_one sc rs a
        (fun x hx => h x (List.mem_cons_of_mem r hx))]

theorem mulAdjust_cols_one (ac : List String) (x : Option ℚ) (r : Record) :
    (mulAdjust ac { r with adjust_factor := x, cum_adj_factor := some 1 }).cols = r.cols := by
  funext c
  simp [mulAdjust]

theorem divAdjust_cols_one (ac : List String) (x : Option ℚ) (r : Record) :
    (divAdjust ac { r with adjust_factor := x, cum_adj_factor := some 1 }).cols = r.cols := by
  funext c
  simp [divAdjust]

theorem dataPart_congr {r2 r : Record} (hd : r2.date = r.date)
    (ht : r2.ticker = r.ticker) (hc : r2.cols = r.cols) :
    dataPart r2 = dataPart r := by
  rw [dataPart, dataPart, hd, ht, hc]

theorem ratTrunc_den_one {q : ℚ} (h : q.den = 1) : ratTrunc q = q := by
  rw [ratTrunc, h, Nat.cast_one, Int.tdiv_one]
  exact (Rat.den_eq_one_iff q).mp h

/-- Casting an integral volume back to int64 leaves the row unchanged. -/
theorem castCols_cols {r : Record} (h : (r.cols "volume").den = 1) :
    (castCols r).cols = r.cols := by
  funext c
  show (if c = "volume" then ratTrunc (r.cols c) else r.cols c) = r.cols c
  split_ifs with hc
  · subst hc
    exact ratTrunc_den_one h
  · rfl

theorem dividendPass_dataPart_map :
    ∀ (p a : ℚ) (l : List Record),
      (dividendPass p a l).map dataPart = l.map dataPart
  | _, _, [] => rfl
  | p, a, r :: rs => by
      simp only [dividendPass, List.map_cons]
      rw [dividendPass_dataPart_map]
      rfl

theorem dividendPass_mem :
    ∀ (p a : ℚ) (l : List Record) (r2 : Record), r2 ∈ dividendPass p a l →
      ∃ r ∈ l, r2.date = r.date ∧ r2.ticker = r.ticker ∧ r2.cols = r.cols
  | _, _, [], r2 => by simp [dividendPass]
  | p, a, r :: rs, r2 => by
      intro h
      simp only [dividendPass, List.mem_cons] at h
      rcases h with h | h
      · exact ⟨r, List.mem_cons_self r rs, by rw [h], by rw [h], by rw [h]⟩
      · obtain ⟨r3, hr3, hh⟩ := dividendPass_mem _ _ rs r2 h
        exact ⟨r3, List.mem_cons_of_mem r hr3, hh⟩

theorem convertFactored_one (ac : List String) (sc : String)
    (df : List Record) (hs : ∀ r ∈ sortDesc df, adjFactor sc r = 1) :
    convertFactored ac sc df = (sortDesc df).map (fun r =>
      mulAdjust ac { r with adjust_factor := some (adjFactor sc r), cum_adj_factor := some 1 }) := by
  rw [convertFactored, factorStage, withFactors_one sc (sortDesc df) 1 hs,
    List.map_map]
  rfl

theorem splitAdjusted_one (ac : List String) (sc : String)
    (df : List Record) (hs : ∀ r ∈ sortDesc df, adjFactor sc r = 1) :
    splitAdjusted ac sc df = (sortDesc df).map (fun r =>
      divAdjust ac { r with adjust_factor := some (adjFactor sc r), cum_adj_factor := some 1 }) := by
  rw [splitAdjusted, factorStage, withFactors_one sc (sortDesc df) 1 hs,
    List.map_map]
  rfl

theorem convertCore_dataPart_perm (ac : List String) (sc : String) (rf : Bool)
    (df : List Record)
    (hs : ∀ r ∈ df, adjFactor sc r = 1)
    (hv : ∀ r ∈ df, (r.cols "volume").den = 1) :
    ((convertCore ac sc rf df).map dataPart).Perm (df.map dataPart) := by
  have hsd : ∀ r ∈ sortDesc df, adjFactor sc r = 1 := fun r hr =>
    hs r ((List.perm_insertionSort descR df).mem_iff.mp hr)
  have hz := convertFactored_one ac sc df hsd
  have hmem : ∀ r3 ∈ sortAsc (convertFactored ac sc df),
      (r3.cols "volume").den = 1 := by
    intro r3 hr3
    have h2 : r3 ∈ convertFactored ac sc df :=
      (List.perm_insertionSort ascR _).mem_iff.mp hr3
    rw [hz] at h2
    obtain ⟨r, hr, rfl⟩ := List.mem_map.mp h2
    rw [mulAdjust_cols_one]
    exact hv r ((List.perm_insertionSort descR df).mem_iff.mp hr)
  have key : (convertCore ac sc rf df).map dataPart =
      (sortAsc (convertFactored ac sc df)).map dataPart := by
    cases rf
    · show ((sortAsc (convertFactored ac sc df)).map castCols).map dataPart = _
      rw [List.map_map]
      exact List.map_congr_left (fun r3 h3 =>
        dataPart_congr rfl rfl (castCols_cols (hmem r3 h3)))
    · show (((sortAsc (convertFactored ac sc df)).map castCols).map
        dropFactorCols).map dataPart = _
      rw [List.map_map, List.map_map]
      exact List.map_congr_left (fun r3 h3 =>
        dataPart_congr rfl rfl (castCols_cols (hmem r3 h3)))
  have p1 : ((sortAsc (convertFactored ac sc df)).map dataPart).Perm
      ((convertFactored ac sc df).map dataPart) :=
    (List.perm_insertionSort ascR _).map dataPart
  have e2 : (convertFactored ac sc df).map dataPart =
      (sortDesc df).map dataPart := by
    rw [hz, List.map_map]
    exact List.map_congr_left (fun r _ =>
      dataPart_congr rfl rfl (mulAdjust_cols_one ac _ r))
  have p3 : ((convertFactored ac sc df).map dataPart).Perm (df.map dataPart) := by
    rw [e2]
    exact (List.perm_insertionSort descR df).map dataPart
  rw [key]
  exact p1.trans p3

theorem convertCore_mem (ac : List String) (sc : String) (rf : Bool)
    (df : List Record)
    (hs : ∀ r ∈ df, adjFactor sc r = 1)
    (hv : ∀ r ∈ df, (r.cols "volume").den = 1) :
    ∀ r2 ∈ convertCore ac sc rf df, ∃ r ∈ df,
      r2.date = r.date ∧ r2.ticker = r.ticker ∧ r2.cols = r.cols := by
  have hsd : ∀ r ∈ sortDesc df, adjFactor sc r = 1 := fun r hr =>
    hs r ((List.perm_insertionSort descR df).mem_iff.mp hr)
  have hz := convertFactored_one ac sc df hsd
  have base : ∀ r3 ∈ sortAsc (convertFactored ac sc df), ∃ r ∈ df,
      r3.date = r.date ∧ r3.ticker = r.ticker ∧ r3.cols = r.cols := by
    intro r3 hr3
    have h2 : r3 ∈ convertFactored ac sc df :=
      (List.perm_insertionSort ascR _).mem_iff.mp hr3
    rw [hz] at h2
    obtain ⟨r, hr, rfl⟩ := List.mem_map.mp h2
    exact ⟨r, (List.perm_insertionSort descR df).mem_iff.mp hr, rfl, rfl,
      mulAdjust_cols_one ac _ r⟩
  intro r2 h2
  cases rf
  · obtain ⟨r3, hr3, rfl⟩ := List.mem_map.mp h2
    obtain ⟨r, hr, hd, ht, hc⟩ := base r3 hr3
    have hden : (r3.cols "volume").den = 1 := by rw [hc]; exact hv r hr
    exact ⟨r, hr, hd, ht, (castCols_cols hden).trans hc⟩
  · obtain ⟨r4, hr4, rfl⟩ := List.mem_map.mp h2
    obtain ⟨r3, hr3, rfl⟩ := List.mem_map.mp hr4
    obtain ⟨r, hr, hd, ht, hc⟩ := base r3 hr3
    have hden : (r3.cols "volume").den = 1 := by rw [hc]; exact hv r hr
    exact ⟨r, hr, hd, ht, (castCols_cols hden).trans hc⟩

theorem adjustCore_dataPart_perm (ac : List String) (sc : String)
    (df : List Record) (hs : ∀ r ∈ df, adjFactor sc r = 1) :
    ((adjustCore ac sc df).map dataPart).Perm (df.map dataPart) := by
  have hsd : ∀ r ∈ sortDesc df, adjFactor sc r = 1 := fun r hr =>
    hs r ((List.perm_insertionSort descR df).mem_iff.mp hr)
  have hz := splitAdjusted_one ac sc df hsd
  have e1 : (adjustCore ac sc df).map dataPart =
      (splitAdjusted ac sc df).map dataPart := dividendPass_dataPart_map 0 1 _
  have e2 : (splitAdjusted ac sc df).map dataPart =
      (sortDesc df).map dataPart := by
    rw [hz, List.map_map]
    exact List.map_congr_left (fun r _ =>
      dataPart_congr rfl rfl (divAdjust_cols_one ac _ r))
  rw [e1, e2]
  exact (List.perm_insertionSort descR df).map dataPart

theorem adjustCore_mem (ac : List String) (sc : String) (df : List Record)
    (hs : ∀ r ∈ df, adjFactor sc r = 1) :
    ∀ r2 ∈ adjustCore ac sc df, ∃ r ∈ df,
      r2.date = r.date ∧ r2.ticker = r.ticker ∧ r2.cols = r.cols := by
  have hsd : ∀ r ∈ sortDesc df, adjFactor sc r = 1 := fun r hr =>
    hs r ((List.perm_insertionSort descR df).mem_iff.mp hr)
  have hz := splitAdjusted_one ac sc df hsd
  intro r2 h2
  obtain ⟨r3, hr3, hd, ht, hc⟩ := dividendPass_mem 0 1 _ r2 h2
  rw [hz] at hr3
  obtain ⟨r, hr, rfl⟩ := List.mem_map.mp hr3
  exact ⟨r, (List.perm_insertionSort descR df).mem_iff.mp hr, hd, ht,
    hc.trans (divAdjust_cols_one ac _ r)⟩

/-- Claim C3: for a series with every split-ratio 0 or 1 and zero
dividends, Price Adjuster then Raw Price Reconstructor returns the original
series, and Raw Price Reconstructor then Price Adjuster returns the
original series (as the multiset of rows — timestamp, ticker and the eight
schema columns; the rational model makes the round trip exact, which is
within floating-point tolerance; per the data model, volume is an
integer). -/
theorem c3_roundtrip :
    ∀ (ac : List String) (sc : String) (df : List Record),
      (∀ r ∈ df, r.cols sc = 0 ∨ r.cols sc = 1) →
      (∀ r ∈ df, r.cols "dividends" = 0) →
      (∀ r ∈ df, (r.cols "volume").den = 1) →
        ((adjustCore ac sc (convertCore ac sc true df)).map dataPart).Perm
            (df.map dataPart) ∧
          ((convertCore ac sc true (adjustCore ac sc df)).map dataPart).Perm
            (df.map dataPart) := by
  intro ac sc df hs hd hv
  have hs1 : ∀ r ∈ df, adjFactor sc r = 1 := fun r hr => adjFactor_eq_one (hs r hr)
  constructor
  · have hcv := convertCore_mem ac sc true df hs1 hv
    have hs2 : ∀ r2 ∈ convertCore ac sc true df, adjFactor sc r2 = 1 := by
      intro r2 h2
      obtain ⟨r, hr, _, _, hc⟩ := hcv r2 h2
      rw [adjFactor, hc]
      exact adjFactor_eq_one (hs r hr)
    exact (adjustCore_dataPart_perm ac sc _ hs2).trans
      (convertCore_dataPart_perm ac sc true df hs1 hv)
  · have had := adjustCore_mem ac sc df hs1
    have hs2 : ∀ r2 ∈ adjustCore ac sc df, adjFactor sc r2 = 1 := by
      intro r2 h2
      obtain ⟨r, hr, _, _, hc⟩ := had r2 h2
      rw [adjFactor, hc]
      exact adjFactor_eq_one (hs r hr)
    have hv2 : ∀ r2 ∈ adjustCore ac sc df, (r2.cols "volume").den = 1 := by
      intro r2 h2
      obtain ⟨r, hr, _, _, hc⟩ := had r2 h2
      rw [hc]
      exact hv r hr
    exact (convertCore_dataPart_perm ac sc true _ hs2 hv2).trans
      (adjustCore_dataPart_perm ac sc df hs1)

/-- Witness for C3 on a one-row series with split-ratio 0, zero dividends
and integer volume. -/
theorem c3_roundtrip_witness :
    ((∀ r ∈ [sampleRow ⟨2020, 1, 1⟩],
        r.cols default_split_col = 0 ∨ r.cols default_split_col = 1) ∧
      (∀ r ∈ [sampleRow ⟨2020, 1, 1⟩], r.cols "dividends" = 0) ∧
      (∀ r ∈ [sampleRow ⟨2020, 1, 1⟩], (r.cols "volume").den = 1)) ∧
    (((adjustCore default_adjust_cols default_split_col
          (convertCore default_adjust_cols default_split_col true
            [sampleRow ⟨2020, 1, 1⟩])).map dataPart).Perm
        ([sampleRow ⟨2020, 1, 1⟩].map dataPart) ∧
      ((convertCore default_adjust_cols default_split_col true
          (adjustCore default_adjust_cols default_split_col
            [sampleRow ⟨2020, 1, 1⟩])).map dataPart).Perm
        ([sampleRow ⟨2020, 1, 1⟩].map dataPart)) := by
  have h1 : ∀ r ∈ [sampleRow ⟨2020, 1, 1⟩],
      r.cols default_split_col = 0 ∨ r.cols default_split_col = 1 := by
    norm_num [sampleRow, default_split_col]
  have h2 : ∀ r ∈ [sampleRow ⟨2020, 1, 1⟩], r.cols "dividends" = 0 := by
    norm_num [sampleRow]
  have h3 : ∀ r ∈ [sampleRow ⟨2020, 1, 1⟩], (r.cols "volume").den = 1 := by
    intro r hr
    rw [List.mem_singleton] at hr
    subst hr
    decide
  exact ⟨⟨h1, h2, h3⟩, c3_roundtrip default_adjust_cols default_split_col
    [sampleRow ⟨2020, 1, 1⟩] h1 h2 h3⟩

theorem withFactors_length (sc : String) :
    ∀ (a : ℚ) (l : List Record), (withFactors sc a l).length = l.length
  | _, [] => rfl
  | a, r :: rs => by
      show (withFactors sc _ rs).length + 1 = rs.length + 1
      rw [withFactors_length]

theorem withFactors_append (sc : String) :
    ∀ (l1 l2 : List Record) (a : ℚ),
      withFactors sc a (l1 ++ l2) =
        withFactors sc a l1 ++
          withFactors sc (a * (l1.map (adjFactor sc)).prod) l2
  | [], l2, a => by simp [withFactors]
  | r :: rs, l2, a => by
      show withFactors sc a (r :: (rs ++ l2)) =
        withFactors sc a (r :: rs) ++
          withFactors sc (a * ((r :: rs).map (adjFactor sc)).prod) l2
      simp only [withFactors, List.map_cons, List.prod_cons, List.cons_append]
      rw [withFactors_append sc rs l2 (a * adjFactor sc r), mul_assoc]

theorem convertCore_length (ac : List String) (sc : String) (rf : Bool)
    (df : List Record) : (convertCore ac sc rf df).length = df.length := by
  cases rf
  · show ((sortAsc (convertFactored ac sc df)).map castCols).length = _
    rw [List.length_map, sortAsc, List.length_insertionSort, convertFactored,
      List.length_map, factorStage, withFactors_length, sortDesc,
      List.length_insertionSort]
  · show (((sortAsc (convertFactored ac sc df)).map castCols).map
      dropFactorCols).length = _
    rw [List.length_map, List.length_map, sortAsc, List.length_insertionSort,
      convertFactored, List.length_map, factorStage, withFactors_length,
      sortDesc, List.length_insertionSort]

/-- The target columns of one output row of the Raw Price Reconstructor:
each is the input value times the row's cumulative adjustment factor. -/
theorem convert_row_cols (ac : List String) (x : Option ℚ) (q : ℚ)
    (r : Record) (c : String) (hc : c ∈ ac) (hcv : c ≠ "volume") :
    (dropFactorCols (castCols (mulAdjust ac
      { r with adjust_factor := x, cum_adj_factor := some q }))).cols c =
      r.cols c * q := by
  simp only [dropFactorCols, castCols, mulAdjust, Option.getD_some]
  rw [if_neg hcv, if_pos hc]

theorem adjFactor_two {sc : String} {s : Record} (h : s.cols sc = 2) :
    adjFactor sc s = 2 := by
  rw [adjFactor, h]
  norm_num

/-- Claim C4: for a series whose only split event has ratio 2, the Raw
Price Reconstructor doubles each target column of every period strictly
earlier in calendar time than the split period, and leaves the target
columns of the split period and of every later period unchanged. -/
theorem c4_single_split :
    ∀ (df : List Record) (s : Record),
      List.Pairwise (fun a b => dateKey a.date ≠ dateKey b.date) df →
      s ∈ df →
      s.cols default_split_col = 2 →
      (∀ r ∈ df, dateKey r.date ≠ dateKey s.date →
        r.cols default_split_col = 0 ∨ r.cols default_split_col = 1) →
      (convertCore default_adjust_cols default_split_col true df).length =
          df.length ∧
        ∀ r2 ∈ convertCore default_adjust_cols default_split_col true df,
          ∃ r ∈ df, r2.date = r.date ∧
            ∀ c ∈ default_adjust_cols,
              r2.cols c = if dateKey r.date < dateKey s.date then
                2 * r.cols c else r.cols c := by
  intro df s hpair hmem hs2 hother
  have hperm := List.perm_insertionSort descR df
  have hsorted : List.Pairwise descR (sortDesc df) :=
    List.sorted_insertionSort descR df
  have hpair2 : List.Pairwise (fun a b => dateKey a.date ≠ dateKey b.date)
      (sortDesc df) := (hperm.pairwise_iff fun h => Ne.symm h).mpr hpair
  have hsmem : s ∈ sortDesc df := hperm.mem_iff.mpr hmem
  obtain ⟨A, B, hAB⟩ := List.append_of_mem hsmem
  rw [hAB] at hsorted hpair2
  have hA_gt : ∀ r ∈ A, dateKey s.date < dateKey r.date := by
    intro r hr
    have h1 : descR r s :=
      (List.pairwise_append.mp hsorted).2.2 r hr s (List.mem_cons_self s B)
    have h2 : dateKey r.date ≠ dateKey s.date :=
      (List.pairwise_append.mp hpair2).2.2 r hr s (List.mem_cons_self s B)
    exact lt_of_le_of_ne h1 h2.symm
  have hB_lt : ∀ r ∈ B, dateKey r.date < dateKey s.date := by
    intro r hr
    have h1 : descR s r :=
      (List.pairwise_cons.mp (List.pairwise_append.mp hsorted).2.1).1 r hr
    have h2 : dateKey s.date ≠ dateKey r.date :=
      (List.pairwise_cons.mp (List.pairwise_append.mp hpair2).2.1).1 r hr
    exact lt_of_le_of_ne h1 h2.symm
  have hmemA : ∀ r ∈ A, r ∈ df := by
    intro r hr
    have hin : r ∈ sortDesc df := by
      rw [hAB]
      exact List.mem_append_left _ hr
    exact hperm.mem_iff.mp hin
  have hmemB : ∀ r ∈ B, r ∈ df := by
    intro r hr
    have hin : r ∈ sortDesc df := by
      rw [hAB]
      exact List.mem_append_right _ (List.mem_cons_of_mem s hr)
    exact hperm.mem_iff.mp hin
  have hafA : ∀ r ∈ A, adjFactor default_split_col r = 1 := fun r hr =>
    adjFactor_eq_one (hother r (hmemA r hr) (hA_gt r hr).ne')
  have hafB : ∀ r ∈ B, adjFactor default_split_col r = 1 := fun r hr =>
    adjFactor_eq_one (hother r (hmemB r hr) (hB_lt r hr).ne)
  have hprodA : (A.map (adjFactor default_split_col)).prod = 1 :=
    List.prod_eq_one (by
      intro x hx
      obtain ⟨r, hr, rfl⟩ := List.mem_map.mp hx
      exact hafA r hr)
  have hone : (1 : ℚ) * adjFactor default_split_col s = 2 := by
    rw [adjFactor_two hs2, one_mul]
  have hfact : factorStage default_split_col df =
      A.map (fun r => { r with adjust_factor := some (adjFactor default_split_col r), cum_adj_factor := some (1 : ℚ) }) ++
      ({ s with adjust_factor := some (adjFactor default_split_col s), cum_adj_factor := some (1 : ℚ) } ::
        B.map (fun r => { r with adjust_factor := some (adjFactor default_split_col r), cum_adj_factor := some (2 : ℚ) })) := by
    rw [factorStage, hAB, withFactors_append, hprodA, mul_one,
      withFactors_one _ A 1 hafA]
    congr 1
    simp only [withFactors]
    rw [hone, withFactors_one _ B 2 hafB]
  constructor
  · exact convertCore_length _ _ _ _
  · intro r2 h2
    obtain ⟨r4, hr4, rfl⟩ := List.mem_map.mp h2
    obtain ⟨r3, hr3, rfl⟩ := List.mem_map.mp hr4
    have hr3b : r3 ∈ convertFactored default_adjust_cols default_split_col df :=
      (List.perm_insertionSort ascR _).mem_iff.mp hr3
    rw [convertFactored, hfact, List.map_append, List.map_cons] at hr3b
    have hvol : ∀ c ∈ default_adjust_cols, c ≠ "volume" := by decide
    rcases List.mem_append.mp hr3b with hA2 | hSB
    · rw [List.map_map] at hA2
      obtain ⟨r, hr, rfl⟩ := List.mem_map.mp hA2
      refine ⟨r, hmemA r hr, rfl, ?_⟩
      intro c hc
      rw [if_neg (lt_asymm (hA_gt r hr))]
      have hcc := convert_row_cols default_adjust_cols
        (some (adjFactor default_split_col r)) 1 r c hc (hvol c hc)
      exact hcc.trans (mul_one _)
    · rcases List.mem_cons.mp hSB with hS | hB2
      · subst hS
        refine ⟨s, hmem, rfl, ?_⟩
        intro c hc
        rw [if_neg (lt_irrefl _)]
        have hcc := convert_row_cols default_adjust_cols
          (some (adjFactor default_split_col s)) 1 s c hc (hvol c hc)
        exact hcc.trans (mul_one _)
      · rw [List.map_map] at hB2
        obtain ⟨r, hr, rfl⟩ := List.mem_map.mp hB2
        refine ⟨r, hmemB r hr, rfl, ?_⟩
        intro c hc
        rw [if_pos (hB_lt r hr)]
        have hcc := convert_row_cols default_adjust_cols
          (some (adjFactor default_split_col r)) 2 r c hc (hvol c hc)
        exact hcc.trans (mul_comm _ _)

/-- Witness for C4 on the four-row example series whose only split event
(ratio 2) is on 2022-01-02. -/
theorem c4_single_split_witness :
    (List.Pairwise (fun a b => dateKey a.date ≠ dateKey b.date) c1Example ∧
      mkRow ⟨2022, 1, 2⟩ 2 ∈ c1Example ∧
      (mkRow ⟨2022, 1, 2⟩ 2).cols default_split_col = 2 ∧
      (∀ r ∈ c1Example,
        dateKey r.date ≠ dateKey (mkRow ⟨2022, 1, 2⟩ 2).date →
          r.cols default_split_col = 0 ∨ r.cols default_split_col = 1)) ∧
    ((convertCore default_adjust_cols default_split_col true
          c1Example).length = c1Example.length ∧
      ∀ r2 ∈ convertCore default_adjust_cols default_split_col true c1Example,
        ∃ r ∈ c1Example, r2.date = r.date ∧
          ∀ c ∈ default_adjust_cols,
            r2.cols c = if dateKey r.date <
                dateKey (mkRow ⟨2022, 1, 2⟩ 2).date then
              2 * r.cols c else r.cols c) := by
  have hp : List.Pairwise (fun a b => dateKey a.date ≠ dateKey b.date)
      c1Example := by
    rw [c1Example]
    refine List.Pairwise.cons ?_ (List.Pairwise.cons ?_
      (List.Pairwise.cons ?_ (List.pairwise_singleton _ _))) <;>
      intro b hb <;>
      simp only [List.mem_cons, List.mem_singleton, List.not_mem_nil,
        or_false] at hb <;>
      (rcases hb with rfl | rfl | rfl; all_goals decide)
  have hm : mkRow ⟨2022, 1, 2⟩ 2 ∈ c1Example := by
    rw [c1Example]
    exact List.mem_cons_of_mem _ (List.mem_cons_of_mem _
      (List.mem_cons_self _ _))
  have h2 : (mkRow ⟨2022, 1, 2⟩ 2).cols default_split_col = 2 := by decide
  have ho : ∀ r ∈ c1Example,
      dateKey r.date ≠ dateKey (mkRow ⟨2022, 1, 2⟩ 2).date →
        r.cols default_split_col = 0 ∨ r.cols default_split_col = 1 := by
    intro r hr hne
    simp only [c1Example, List.mem_cons, List.not_mem_nil, or_false] at hr
    rcases hr with rfl | rfl | rfl | rfl
    · right; decide
    · right; decide
    · exact absurd rfl hne
    · right; decide
  exact ⟨⟨hp, hm, h2, ho⟩, c4_single_split c1Example _ hp hm h2 ho⟩

/-- When components 4 and 5 of every discovered path parse as numbers, the
persistence loop finishes without an exception and, for each discovered
path, ensures the year and month directory levels and writes the matching
month's rows to `export/{component4}/{component5}/{ticker}.parquet`. -/
theorem savePlan_parse (exportBase ticker : String) (out : List Record) :
    ∀ paths : List String,
      (∀ p ∈ paths, ∃ sy sm y m, (pathSplit p).get? 4 = some sy ∧
        (pathSplit p).get? 5 = some sm ∧ pythonInt sy = some y ∧
        pythonInt sm = some m) →
      (savePlan exportBase ticker out paths).2 = none ∧
        ∀ p ∈ paths, ∀ sy sm y m, (pathSplit p).get? 4 = some sy →
          (pathSplit p).get? 5 = some sm → pythonInt sy = some y →
          pythonInt sm = some m →
            Effect.ensureDir (exportBase ++ "/" ++ sy) ∈
                (savePlan exportBase ticker out paths).1 ∧
              Effect.ensureDir (exportBase ++ "/" ++ sy ++ "/" ++ sm) ∈
                (savePlan exportBase ticker out paths).1 ∧
              Effect.writeParquet (exportBase ++ "/" ++ sy ++ "/" ++ sm ++
                    "/" ++ ticker ++ ".parquet")
                  (out.filter (fun r => r.date.year == y &&
                    r.date.month == m)) ∈
                (savePlan exportBase ticker out paths).1
  | [] => by
      intro _
      exact ⟨rfl, by simp⟩
  | p :: ps => by
      intro H
      obtain ⟨sy, sm, y, m, h4, h5, hy, hm⟩ := H p (List.mem_cons_self p ps)
      have ih := savePlan_parse exportBase ticker out ps
        (fun p2 hp2 => H p2 (List.mem_cons_of_mem p hp2))
      have hplan : savePlan exportBase ticker out (p :: ps) =
          (Effect.ensureDir (exportBase ++ "/" ++ sy) ::
            Effect.ensureDir (exportBase ++ "/" ++ sy ++ "/" ++ sm) ::
            Effect.writeParquet (exportBase ++ "/" ++ sy ++ "/" ++ sm ++
                "/" ++ ticker ++ ".parquet")
              (out.filter (fun r => r.date.year == y && r.date.month == m)) ::
            (savePlan exportBase ticker out ps).1,
           (savePlan exportBase ticker out ps).2) := by
        simp only [savePlan, h4, h5, hy, hm]
      constructor
      · rw [hplan]
        exact ih.1
      · intro p2 hp2 sy2 sm2 y2 m2 h42 h52 hy2 hm2
        rcases List.mem_cons.mp hp2 with rfl | hp2b
        · rw [h4] at h42
          rw [h5] at h52
          cases h42
          cases h52
          rw [hy] at hy2
          rw [hm] at hm2
          cases hy2
          cases hm2
          rw [hplan]
          exact ⟨List.mem_cons_self _ _,
            List.mem_cons_of_mem _ (List.mem_cons_self _ _),
            List.mem_cons_of_mem _ (List.mem_cons_of_mem _
              (List.mem_cons_self _ _))⟩
        · have hm3 := ih.2 p2 hp2b sy2 sm2 y2 m2 h42 h52 hy2 hm2
          rw [hplan]
          exact ⟨List.mem_cons_of_mem _ (List.mem_cons_of_mem _
              (List.mem_cons_of_mem _ hm3.1)),
            List.mem_cons_of_mem _ (List.mem_cons_of_mem _
              (List.mem_cons_of_mem _ hm3.2.1)),
            List.mem_cons_of_mem _ (List.mem_cons_of_mem _
              (List.mem_cons_of_mem _ hm3.2.2))⟩

/-- Claim C8 (amended): when persistence is requested and every discovered
path's slash-components 4 and 5 parse as numbers y and m, the Raw Price
Reconstructor finishes without an exception and, for every originally
discovered partition path, ensures the two directory levels and writes
exactly the output rows whose timestamp's year and month equal (y, m) to
`export_base_path/{component4}/{component5}/{ticker}.parquet`.  The
components used are the HARDCODED path positions 4 and 5, which coincide
with the partition's year and month exactly when the base path has four
slash-separated components (e.g. `/d/x/y`); for other base-path depths the
claim fails (see the counterexample). -/
theorem c8_save_partitions :
    ∀ (fs : FS) (t base e : String) (fy ly : Nat) (ac : List String)
      (sc : String) (rf : Bool) (paths : List String),
      get_parquet_paths fs base fy ly (some t) = .ok paths →
      paths ≠ [] →
      (∀ p ∈ paths, ∃ sy sm y m, (pathSplit p).get? 4 = some sy ∧
        (pathSplit p).get? 5 = some sm ∧ pythonInt sy = some y ∧
        pythonInt sm = some m) →
      ∃ effs,
        convert_price_to_raw fs t base e fy ly ac sc rf true =
            ⟨none, effs, none⟩ ∧
          ∀ p ∈ paths, ∀ sy sm y m,
            (pathSplit p).get? 4 = some sy → (pathSplit p).get? 5 = some sm →
            pythonInt sy = some y → pythonInt sm = some m →
              Effect.ensureDir (e ++ "/" ++ sy) ∈ effs ∧
                Effect.ensureDir (e ++ "/" ++ sy ++ "/" ++ sm) ∈ effs ∧
                Effect.writeParquet
                    (e ++ "/" ++ sy ++ "/" ++ sm ++ "/" ++ t ++ ".parquet")
                    ((convertCore ac sc rf ((paths.map fs.data).flatten)).filter
                      (fun r => r.date.year == y && r.date.month == m)) ∈
                  effs := by
  intro fs t base e fy ly ac sc rf paths hp hne H
  have hsp := savePlan_parse e t
    (convertCore ac sc rf ((paths.map fs.data).flatten)) paths H
  refine ⟨(savePlan e t (convertCore ac sc rf
    ((paths.map fs.data).flatten)) paths).1, ?_, hsp.2⟩
  rw [convert_price_to_raw, hp]
  cases paths with
  | nil => exact absurd rfl hne
  | cons a l =>
      simp only [List.isEmpty_cons, Bool.false_eq_true, if_false]
      rw [hsp.1]
      simp

/-- Counterexample to claim C8 as stated: with the five-component base path
`9/9/9/9/9`, the discovered partition `.../2020/01/AAA.parquet` holds a row
dated 2020-01-15, yet the write goes to `out/9/2020/AAA.parquet` — not to
`out/2020/01/AAA.parquet` — and contains no rows (the filter looks for
year 9, month 2020), because the year and month are taken from hardcoded
path positions 4 and 5. -/
theorem c8_save_partitions_counterexample :
    (convert_price_to_raw fs8 "AAA" "9/9/9/9/9" "out" 2020 2020
          default_adjust_cols default_split_col true true).effects.map
        effectShape =
      [.dir "out/9", .dir "out/9/2020", .file "out/9/2020/AAA.parquet" []] ∧
      ("out/9/2020/AAA.parquet" : String) ≠ "out/2020/01/AAA.parquet" ∧
      dateKey (sampleRow ⟨2020, 1, 15⟩).date = 20200115 := by
  refine ⟨by decide, by decide, by decide⟩

/-- Witness for C8 on the four-component base path `/d/x/y`: the write for
partition 2020/01 goes to `out/2020/01/AAA.parquet` and the directory
levels are ensured. -/
theorem c8_save_partitions_witness :
    (get_parquet_paths fsW "/d/x/y" 2020 2020 (some "AAA") =
        .ok ["/d/x/y/2020/01/AAA.parquet"]) ∧
      (∃ effs,
        convert_price_to_raw fsW "AAA" "/d/x/y" "out" 2020 2020
            default_adjust_cols default_split_col true true =
          ⟨none, effs, none⟩ ∧
        ∀ p ∈ ["/d/x/y/2020/01/AAA.parquet"], ∀ sy sm y m,
          (pathSplit p).get? 4 = some sy → (pathSplit p).get? 5 = some sm →
          pythonInt sy = some y → pythonInt sm = some m →
            Effect.ensureDir ("out" ++ "/" ++ sy) ∈ effs ∧
              Effect.ensureDir ("out" ++ "/" ++ sy ++ "/" ++ sm) ∈ effs ∧
              Effect.writeParquet
                  ("out" ++ "/" ++ sy ++ "/" ++ sm ++ "/" ++ "AAA" ++
                    ".parquet")
                  ((convertCore default_adjust_cols default_split_col true
                      ((["/d/x/y/2020/01/AAA.parquet"].map fsW.data).flatten)).filter
                    (fun r => r.date.year == y && r.date.month == m)) ∈
                effs) :=
  ⟨rfl, c8_save_partitions fsW "AAA" "/d/x/y" "out" 2020 2020
    default_adjust_cols default_split_col true
    ["/d/x/y/2020/01/AAA.parquet"] rfl (by decide)
    (by
      intro p hp
      rw [List.mem_singleton] at hp
      subst hp
      exact ⟨"2020", "01", 2020, 1, by decide, by decide, by decide,
        by decide⟩)⟩
